import Mathlib

/-!
Verification of the numerical core of the MaxEnt IRL notebook (BILT-B).

The notebook's arrays of floats are modelled as `List K` over a linear
ordered field `K` (instantiated at `ℚ` for executable claims and at `ℝ`
for the softmax, which needs a real exponential).  The gym environment's
transition table `env.P[state][action]` — a list of
`(prob, next_state, reward, done)` tuples — is modelled by the `MDP`
structure below.  `numpy` indexing `V[i]` is modelled by `List.getD i 0`;
all theorems that depend on indices being in range carry explicit
in-range hypotheses mirroring the shapes the notebook relies on.
-/

namespace BILT

variable {K : Type} [LinearOrderedField K]

/-- One entry of `env.P[state][action]`: a `(prob, next_state, reward, done)`
transition outcome. -/
structure Outcome (K : Type) where
  prob : K
  next : Nat
  reward : K
  done : Bool
  deriving DecidableEq

/-- The finite MDP interface the notebook consumes: `env.nS`, `env.nA` and
the transition table `env.P`. -/
structure MDP (K : Type) where
  n_states : Nat
  n_actions : Nat
  P : Nat → Nat → List (Outcome K)

/-- `np.zeros(n)`. -/
def zeros (n : Nat) : List K := List.replicate n 0

/-- The reward used for one outcome inside `compute_action_value`:
the MDP's native outcome reward when `reward_function is None`, and
`reward_function[state]` otherwise (mirrors the if/else in the notebook). -/
def outcomeReward (reward_function : Option (List K)) (state : Nat) (o : Outcome K) : K :=
  match reward_function with
  | none => o.reward
  | some rf => rf.getD state 0

/-- `compute_action_value(state)` from `ValueIteration.__call__`: the vector
`qA` of Q-values over actions, `qA[a] = Σ_o prob·(reward + gamma·V[next])`,
accumulated exactly as the notebook's nested loop does. -/
def compute_action_value (mdp : MDP K) (gamma : K) (reward_function : Option (List K))
    (V : List K) (state : Nat) : List K :=
  (List.range mdp.n_actions).map (fun action =>
    (mdp.P state action).foldl
      (fun qa o => qa + o.prob * (outcomeReward reward_function state o + gamma * V.getD o.next 0))
      0)

/-- Reference Bellman formula: the Q-row written as an explicit sum,
with the per-outcome reward abstracted by `rsel`.  Used to state what the
code computes (C6, C10); note the bootstrapped term `gamma * V[next]`
appears for every outcome with no test of the `done` flag. -/
def bellmanQ (mdp : MDP K) (gamma : K) (rsel : Nat → Outcome K → K)
    (V : List K) (state : Nat) : List K :=
  (List.range mdp.n_actions).map (fun action =>
    ((mdp.P state action).map
      (fun o => o.prob * (rsel state o + gamma * V.getD o.next 0))).sum)

/-- An MDP identical to `mdp` except that each outcome's terminal flag is
replaced by an arbitrary function of the position (used to express that the
code never reads `done`). -/
def setDone (mdp : MDP K) (g : Nat → Nat → Outcome K → Bool) : MDP K :=
  ⟨mdp.n_states, mdp.n_actions, fun s a =>
    (mdp.P s a).map (fun o => ⟨o.prob, o.next, o.reward, g s a o⟩)⟩

theorem foldl_add_eq_sum (f : α → K) (l : List α) :
    ∀ q : K, l.foldl (fun acc o => acc + f o) q = q + (l.map f).sum := by
  induction l with
  | nil => intro q; simp
  | cons x xs ih =>
    intro q
    simp only [List.foldl_cons, List.map_cons, List.sum_cons, ih]
    ring

theorem compute_action_value_eq_bellmanQ (mdp : MDP K) (gamma : K)
    (reward_function : Option (List K)) (V : List K) (state : Nat) :
    compute_action_value mdp gamma reward_function V state
      = bellmanQ mdp gamma (fun s o => outcomeReward reward_function s o) V state := by
  unfold compute_action_value bellmanQ
  refine List.map_congr_left (fun a _ => ?_)
  rw [foldl_add_eq_sum, zero_add]

/-- C6: with a `reward_override`, every outcome reward in state `s` is
`reward_override[s]` — independent of the action and of the next state —
and with no override the MDP's native per-outcome reward is used. -/
theorem reward_override_is_state_reward (mdp : MDP K) (gamma : K) (rf : List K)
    (V : List K) (state : Nat) :
    compute_action_value mdp gamma (some rf) V state
        = bellmanQ mdp gamma (fun s _ => rf.getD s 0) V state
      ∧ compute_action_value mdp gamma none V state
        = bellmanQ mdp gamma (fun _ o => o.reward) V state := by
  constructor
  · rw [compute_action_value_eq_bellmanQ]
    rfl
  · rw [compute_action_value_eq_bellmanQ]
    rfl

/-- C10: `compute_action_value` never reads the `done` flag — flipping all
terminal flags leaves every Q-value unchanged — and the Q-row is the sum
`Σ_o prob·(reward + gamma·V[next])` over all outcomes, so the bootstrapped
term `gamma·V[next]` is included for outcomes marked terminal as well. -/
theorem terminal_flag_ignored (mdp : MDP K) (gamma : K)
    (reward_function : Option (List K)) (V : List K) (state : Nat)
    (g : Nat → Nat → Outcome K → Bool) :
    compute_action_value (setDone mdp g) gamma reward_function V state
        = compute_action_value mdp gamma reward_function V state
      ∧ compute_action_value mdp gamma reward_function V state
        = bellmanQ mdp gamma (fun s o => outcomeReward reward_function s o) V state := by
  refine ⟨?_, compute_action_value_eq_bellmanQ ..⟩
  unfold compute_action_value setDone
  refine List.map_congr_left (fun a _ => ?_)
  simp only [List.foldl_map]
  rcases reward_function with _ | rf <;> rfl

/-! ### Trajectory sampler (C1)

`sample_trajectories(env, policy, n_steps, n_trajectories, initial_states)`.
The random draws are modelled explicitly: `stepf state action` is the
(sampled) environment transition `env.step` after `env.s = state`, and
`act k i` is the action index drawn from `policy` for start state number
`k` at step `i`.  The `initial_states is None` branch only chooses the
list of start states (uniform random draws); the list `states` below is
that chosen list, so both branches are covered by quantifying over it.

Crucially, the notebook's `trajectories.append(trajectory)` sits INSIDE
the `for i in range(n_steps)` loop, and appends a reference to the single
mutable `trajectory` list.  So each start state contributes one copy of
its final trajectory per non-terminal step taken (and the iteration that
hits `done` breaks before the append).  `rolloutGo` returns the final
contents of `trajectory` together with that append count. -/

def rolloutGo (stepf : Nat → Nat → Nat × Bool) (act : Nat → Nat) (n_steps : Nat) :
    Nat → Nat → List Nat → Nat → List Nat × Nat
  | 0, _, traj, appended => (traj, appended)
  | Nat.succ rem, state, traj, appended =>
    let action := act (n_steps - Nat.succ rem)
    let traj2 := traj ++ [state]
    let r := stepf state action
    if r.2 then
      (traj2 ++ List.replicate (n_steps - traj2.length) r.1, appended)
    else
      rolloutGo stepf act n_steps rem r.1 traj2 (appended + 1)

def sample_trajectories (stepf : Nat → Nat → Nat × Bool) (act : Nat → Nat → Nat)
    (n_steps : Nat) (states : List Nat) : List (List Nat) :=
  (states.enum.map (fun p =>
    let r := rolloutGo stepf (act p.1) n_steps n_steps p.2 [] 0
    List.replicate r.2 r.1)).flatten

/-- C1 (refutation): the returned batch does NOT have one row per start
state.  With a single start state `5` and `n_steps = 2`: a never-terminating
environment yields two identical rows, and an environment that terminates on
the first step yields zero rows. -/
theorem sample_trajectories_not_one_row_per_start :
    sample_trajectories (fun _ _ => (0, false)) (fun _ _ => 0) 2 [5] = [[5, 0], [5, 0]]
      ∧ sample_trajectories (fun _ _ => (1, true)) (fun _ _ => 0) 2 [5] = []
      ∧ (2 : Nat) ≠ 1 := by
  refine ⟨rfl, rfl, by decide⟩

/-! ### Value-iteration sweep loop (C3, C4)

`ValueIteration.__call__` body: `V = np.zeros(n_states)`, then
`while True:` sweep all states in order, updating `V[state]` in place
(Gauss–Seidel) and accumulating `delta = max(delta, |max_q - V[state]|)`,
stopping when `delta < epslion`.  The unbounded `while` is modelled with
an explicit fuel parameter (`viLoop fuel`); the convergence theorem shows
some finite fuel always suffices. -/

/-- `qA.max()` on a numpy vector (nonempty in all uses; `0` for `[]`). -/
def listMax : List K → K
  | [] => 0
  | x :: xs => xs.foldl max x

/-- One pass of the inner `for state in range(n_states)` loop, over the
remaining states `rest`, carrying the in-place `V` and the running `delta`. -/
def sweepAux (mdp : MDP K) (gamma : K) (reward_function : Option (List K)) :
    List Nat → List K → K → List K × K
  | [], V, delta => (V, delta)
  | state :: rest, V, delta =>
    let max_q := listMax (compute_action_value mdp gamma reward_function V state)
    sweepAux mdp gamma reward_function rest (V.set state max_q)
      (max delta |max_q - V.getD state 0|)

/-- One full synchronous sweep as executed by the `while` body. -/
def sweep (mdp : MDP K) (gamma : K) (reward_function : Option (List K)) (V : List K) :
    List K × K :=
  sweepAux mdp gamma reward_function (List.range mdp.n_states) V 0

/-- The `while True` loop with fuel: run sweeps until `delta < eps`
(returning the value function) or the fuel runs out (`none`). -/
def viLoop (mdp : MDP K) (gamma : K) (reward_function : Option (List K)) (eps : K) :
    Nat → List K → Option (List K)
  | 0, _ => none
  | Nat.succ fuel, V =>
    if (sweep mdp gamma reward_function V).2 < eps then some (sweep mdp gamma reward_function V).1
    else viLoop mdp gamma reward_function eps fuel (sweep mdp gamma reward_function V).1

/-- The state-value vector after `k` sweeps starting from `V`. -/
def sweepIterFrom (mdp : MDP K) (gamma : K) (reward_function : Option (List K))
    (V : List K) : Nat → List K
  | 0 => V
  | Nat.succ k => (sweep mdp gamma reward_function (sweepIterFrom mdp gamma reward_function V k)).1

/-- The residual `delta` recorded by sweep number `k` (0-indexed) of the
run started, as in the notebook, from `V = np.zeros(n_states)`. -/
def residual (mdp : MDP K) (gamma : K) (reward_function : Option (List K)) (k : Nat) : K :=
  (sweep mdp gamma reward_function
    (sweepIterFrom mdp gamma reward_function (zeros mdp.n_states) k)).2

/-- Well-formedness of the transition table, as assumed by the spec:
nonnegative probabilities summing to 1 per (state, action), and in-range
successor states. -/
def ValidMDP (mdp : MDP K) : Prop :=
  ∀ s, s < mdp.n_states → ∀ a, a < mdp.n_actions →
    (∀ o ∈ mdp.P s a, 0 ≤ o.prob ∧ o.next < mdp.n_states)
      ∧ ((mdp.P s a).map Outcome.prob).sum = 1

theorem getD_set_ne {α : Type} (a d : α) :
    ∀ (l : List α) (i j : Nat), i ≠ j → (l.set i a).getD j d = l.getD j d := by
  intro l
  induction l with
  | nil => intro i j _; simp
  | cons x xs ih =>
    intro i j hij
    cases i with
    | zero =>
      cases j with
      | zero => exact absurd rfl hij
      | succ j => simp
    | succ i =>
      cases j with
      | zero => simp
      | succ j =>
        have : i ≠ j := fun h => hij (by rw [h])
        simpa using ih i j this

theorem getD_set_self {α : Type} (a d : α) :
    ∀ (l : List α) (i : Nat), i < l.length → (l.set i a).getD i d = a := by
  intro l
  induction l with
  | nil => intro i h; simp at h
  | cons x xs ih =>
    intro i h
    cases i with
    | zero => simp
    | succ i => simpa using ih i (by simpa using h)

theorem sum_abs_sub_le {α : Type} (f g h : α → K) (l : List α)
    (hfg : ∀ o ∈ l, |f o - g o| ≤ h o) :
    |(l.map f).sum - (l.map g).sum| ≤ (l.map h).sum := by
  induction l with
  | nil => simp
  | cons x xs ih =>
    simp only [List.map_cons, List.sum_cons]
    have h1 := hfg x (List.mem_cons_self x xs)
    have h2 := ih (fun o ho => hfg o (List.mem_cons_of_mem _ ho))
    have hsplit : f x + (xs.map f).sum - (g x + (xs.map g).sum)
        = (f x - g x) + ((xs.map f).sum - (xs.map g).sum) := by ring
    rw [hsplit]
    exact (abs_add _ _).trans (add_le_add h1 h2)

theorem sum_map_mul_const {α : Type} (f : α → K) (c : K) (l : List α) :
    (l.map (fun o => f o * c)).sum = (l.map f).sum * c := by
  induction l with
  | nil => simp
  | cons x xs ih =>
    simp only [List.map_cons, List.sum_cons, ih]
    ring

theorem sum_map_const_mul {α : Type} (f : α → K) (c : K) (l : List α) :
    (l.map (fun o => c * f o)).sum = c * (l.map f).sum := by
  induction l with
  | nil => simp
  | cons x xs ih =>
    simp only [List.map_cons, List.sum_cons, ih]
    ring

theorem forall₂_map_same {α β : Type} (P : β → β → Prop) (f g : α → β) (l : List α)
    (h : ∀ x ∈ l, P (f x) (g x)) : List.Forall₂ P (l.map f) (l.map g) := by
  induction l with
  | nil => simp
  | cons x xs ih =>
    simp only [List.map_cons]
    exact List.Forall₂.cons (h x (List.mem_cons_self x xs))
      (ih (fun y hy => h y (List.mem_cons_of_mem _ hy)))

theorem bellman_entry_bound (mdp : MDP K) (gamma d : K) (rewf : Option (List K))
    (V W : List K) (hγ : 0 ≤ gamma)
    (hVW : ∀ i, |V.getD i 0 - W.getD i 0| ≤ d)
    (s a : Nat) (hp : ∀ o ∈ mdp.P s a, 0 ≤ o.prob)
    (hsum : ((mdp.P s a).map Outcome.prob).sum = 1) :
    |((mdp.P s a).map (fun o => o.prob * (outcomeReward rewf s o + gamma * V.getD o.next 0))).sum
      - ((mdp.P s a).map (fun o => o.prob * (outcomeReward rewf s o + gamma * W.getD o.next 0))).sum|
      ≤ gamma * d := by
  have key : ∀ o ∈ mdp.P s a,
      |o.prob * (outcomeReward rewf s o + gamma * V.getD o.next 0)
        - o.prob * (outcomeReward rewf s o + gamma * W.getD o.next 0)|
        ≤ o.prob * (gamma * d) := by
    intro o ho
    have hrw : o.prob * (outcomeReward rewf s o + gamma * V.getD o.next 0)
        - o.prob * (outcomeReward rewf s o + gamma * W.getD o.next 0)
        = o.prob * (gamma * (V.getD o.next 0 - W.getD o.next 0)) := by ring
    rw [hrw, abs_mul, abs_mul, abs_of_nonneg (hp o ho), abs_of_nonneg hγ]
    exact mul_le_mul_of_nonneg_left (mul_le_mul_of_nonneg_left (hVW o.next) hγ) (hp o ho)
  have hb := sum_abs_sub_le _ _ _ _ key
  rw [sum_map_mul_const Outcome.prob (gamma * d) (mdp.P s a), hsum, one_mul] at hb
  exact hb

theorem foldl_max_abs_le {d : K} {xs ys : List K}
    (h : List.Forall₂ (fun x y => |x - y| ≤ d) xs ys) :
    ∀ {a b : K}, |a - b| ≤ d → |xs.foldl max a - ys.foldl max b| ≤ d := by
  induction h with
  | nil => intro a b hab; simpa using hab
  | cons hxy _ ih =>
    intro a b hab
    simp only [List.foldl_cons]
    exact ih ((abs_max_sub_max_le_max a _ b _).trans (max_le hab hxy))

theorem listMax_abs_le {d : K} (hd : 0 ≤ d) {xs ys : List K}
    (h : List.Forall₂ (fun x y => |x - y| ≤ d) xs ys) :
    |listMax xs - listMax ys| ≤ d := by
  cases h with
  | nil => simpa using hd
  | cons hxy hrest => exact foldl_max_abs_le hrest hxy

theorem max_q_contract (mdp : MDP K) (gamma d : K) (rewf : Option (List K))
    (V W : List K) (hM : ValidMDP mdp) (hγ : 0 ≤ gamma)
    (hVW : ∀ i, |V.getD i 0 - W.getD i 0| ≤ d) (s : Nat) (hs : s < mdp.n_states) :
    |listMax (compute_action_value mdp gamma rewf V s)
      - listMax (compute_action_value mdp gamma rewf W s)| ≤ gamma * d := by
  have hd : 0 ≤ d := le_trans (abs_nonneg _) (hVW 0)
  apply listMax_abs_le (mul_nonneg hγ hd)
  rw [compute_action_value_eq_bellmanQ, compute_action_value_eq_bellmanQ]
  unfold bellmanQ
  apply forall₂_map_same
  intro a ha
  obtain ⟨hout, hsum⟩ := hM s hs a (List.mem_range.mp ha)
  exact bellman_entry_bound mdp gamma d rewf V W hγ hVW s a (fun o ho => (hout o ho).1) hsum

theorem sweepAux_length (mdp : MDP K) (gamma : K) (rewf : Option (List K)) :
    ∀ (rest : List Nat) (V : List K) (delta : K),
      (sweepAux mdp gamma rewf rest V delta).1.length = V.length := by
  intro rest
  induction rest with
  | nil => intro V delta; rfl
  | cons s rest ih =>
    intro V delta
    simp only [sweepAux]
    rw [ih, List.length_set]

theorem sweepAux_getD_not_mem (mdp : MDP K) (gamma : K) (rewf : Option (List K)) :
    ∀ (rest : List Nat) (V : List K) (delta : K) (i : Nat), i ∉ rest →
      (sweepAux mdp gamma rewf rest V delta).1.getD i 0 = V.getD i 0 := by
  intro rest
  induction rest with
  | nil => intro V delta i _; rfl
  | cons s rest ih =>
    intro V delta i hi
    have hne : i ≠ s := fun h => hi (h ▸ List.mem_cons_self s rest)
    have hnotin : i ∉ rest := fun h => hi (List.mem_cons_of_mem _ h)
    simp only [sweepAux]
    rw [ih _ _ _ hnotin, getD_set_ne _ _ _ _ _ (fun h => hne h.symm)]

theorem sweepAux_snd_ge (mdp : MDP K) (gamma : K) (rewf : Option (List K)) :
    ∀ (rest : List Nat) (V : List K) (delta : K),
      delta ≤ (sweepAux mdp gamma rewf rest V delta).2 := by
  intro rest
  induction rest with
  | nil => intro V delta; exact le_refl _
  | cons s rest ih =>
    intro V delta
    simp only [sweepAux]
    exact le_trans (le_max_left _ _) (ih _ _)

theorem sweepAux_contract (mdp : MDP K) (gamma d : K) (rewf : Option (List K))
    (hM : ValidMDP mdp) (hγ0 : 0 ≤ gamma) (hγ1 : gamma ≤ 1) :
    ∀ (rest : List Nat), (∀ s ∈ rest, s < mdp.n_states) →
    ∀ (V W : List K), V.length = mdp.n_states → W.length = mdp.n_states →
    (∀ i, |V.getD i 0 - W.getD i 0| ≤ d) →
    ∀ (δ1 δ2 : K),
      (∀ i, |(sweepAux mdp gamma rewf rest V δ1).1.getD i 0
              - (sweepAux mdp gamma rewf rest W δ2).1.getD i 0| ≤ d)
      ∧ (∀ s ∈ rest, |(sweepAux mdp gamma rewf rest V δ1).1.getD s 0
              - (sweepAux mdp gamma rewf rest W δ2).1.getD s 0| ≤ gamma * d) := by
  intro rest
  induction rest with
  | nil =>
    intro _ V W _ _ hVW δ1 δ2
    exact ⟨hVW, by simp⟩
  | cons s rest ih =>
    intro hrest V W hlV hlW hVW δ1 δ2
    have hs : s < mdp.n_states := hrest s (List.mem_cons_self s rest)
    have hd : 0 ≤ d := le_trans (abs_nonneg _) (hVW 0)
    have hmq := max_q_contract mdp gamma d rewf V W hM hγ0 hVW s hs
    have hgd_le_d : gamma * d ≤ d := by
      calc gamma * d ≤ 1 * d := mul_le_mul_of_nonneg_right hγ1 hd
        _ = d := one_mul d
    have hVW' : ∀ i,
        |(V.set s (listMax (compute_action_value mdp gamma rewf V s))).getD i 0
          - (W.set s (listMax (compute_action_value mdp gamma rewf W s))).getD i 0| ≤ d := by
      intro i
      by_cases hi : s = i
      · subst hi
        rw [getD_set_self _ _ _ _ (hlV ▸ hs), getD_set_self _ _ _ _ (hlW ▸ hs)]
        exact hmq.trans hgd_le_d
      · rw [getD_set_ne _ _ _ _ _ hi, getD_set_ne _ _ _ _ _ hi]
        exact hVW i
    have hlV' : (V.set s (listMax (compute_action_value mdp gamma rewf V s))).length
        = mdp.n_states := by rw [List.length_set]; exact hlV
    have hlW' : (W.set s (listMax (compute_action_value mdp gamma rewf W s))).length
        = mdp.n_states := by rw [List.length_set]; exact hlW
    obtain ⟨ha, hb⟩ := ih (fun t ht => hrest t (List.mem_cons_of_mem _ ht)) _ _ hlV' hlW' hVW'
      (max δ1 |listMax (compute_action_value mdp gamma rewf V s) - V.getD s 0|)
      (max δ2 |listMax (compute_action_value mdp gamma rewf W s) - W.getD s 0|)
    constructor
    · intro i
      simp only [sweepAux]
      exact ha i
    · intro t ht
      rcases List.mem_cons.mp ht with h | h
      · subst h
        by_cases hmem : t ∈ rest
        · simpa only [sweepAux] using hb t hmem
        · simp only [sweepAux]
          rw [sweepAux_getD_not_mem _ _ _ _ _ _ _ hmem,
            sweepAux_getD_not_mem _ _ _ _ _ _ _ hmem,
            getD_set_self _ _ _ _ (hlV ▸ hs), getD_set_self _ _ _ _ (hlW ▸ hs)]
          exact hmq
      · simpa only [sweepAux] using hb t h

theorem sweepAux_diff_le_snd (mdp : MDP K) (gamma : K) (rewf : Option (List K)) :
    ∀ (rest : List Nat), rest.Nodup → (∀ s ∈ rest, s < mdp.n_states) →
    ∀ (V : List K), V.length = mdp.n_states → ∀ (delta : K), 0 ≤ delta →
    ∀ i, |(sweepAux mdp gamma rewf rest V delta).1.getD i 0 - V.getD i 0|
          ≤ (sweepAux mdp gamma rewf rest V delta).2 := by
  intro rest
  induction rest with
  | nil =>
    intro _ _ V _ delta hδ i
    simp only [sweepAux]
    simpa using hδ
  | cons s rest ih =>
    intro hnd hrest V hlV delta hδ i
    have hs : s < mdp.n_states := hrest s (List.mem_cons_self s rest)
    obtain ⟨hsrest, hnd'⟩ := List.nodup_cons.mp hnd
    have hδ'0 : 0 ≤ max delta |listMax (compute_action_value mdp gamma rewf V s) - V.getD s 0| :=
      le_trans hδ (le_max_left _ _)
    by_cases hi : i = s
    · subst hi
      simp only [sweepAux]
      rw [sweepAux_getD_not_mem _ _ _ _ _ _ _ hsrest,
        getD_set_self _ _ _ _ (hlV ▸ hs)]
      exact le_trans (le_max_right _ _) (sweepAux_snd_ge _ _ _ _ _ _)
    · have h1 := ih hnd' (fun t ht => hrest t (List.mem_cons_of_mem _ ht))
        (V.set s (listMax (compute_action_value mdp gamma rewf V s)))
        (by rw [List.length_set]; exact hlV) _ hδ'0 i
      rw [getD_set_ne _ _ _ _ _ (fun h => hi h.symm)] at h1
      simpa only [sweepAux] using h1

theorem sweepAux_snd_le (mdp : MDP K) (gamma : K) (rewf : Option (List K)) :
    ∀ (rest : List Nat), rest.Nodup → (∀ s ∈ rest, s < mdp.n_states) →
    ∀ (V : List K), V.length = mdp.n_states → ∀ (delta c : K), delta ≤ c →
    (∀ s ∈ rest, |(sweepAux mdp gamma rewf rest V delta).1.getD s 0 - V.getD s 0| ≤ c) →
    (sweepAux mdp gamma rewf rest V delta).2 ≤ c := by
  intro rest
  induction rest with
  | nil =>
    intro _ _ V _ delta c hδ _
    simpa using hδ
  | cons s rest ih =>
    intro hnd hrest V hlV delta c hδ hall
    have hs : s < mdp.n_states := hrest s (List.mem_cons_self s rest)
    obtain ⟨hsrest, hnd'⟩ := List.nodup_cons.mp hnd
    have hsfix := hall s (List.mem_cons_self s rest)
    simp only [sweepAux] at hsfix
    rw [sweepAux_getD_not_mem _ _ _ _ _ _ _ hsrest,
      getD_set_self _ _ _ _ (hlV ▸ hs)] at hsfix
    have hδ' : max delta |listMax (compute_action_value mdp gamma rewf V s) - V.getD s 0| ≤ c :=
      max_le hδ hsfix
    have hall' : ∀ t ∈ rest,
        |(sweepAux mdp gamma rewf rest
            (V.set s (listMax (compute_action_value mdp gamma rewf V s)))
            (max delta |listMax (compute_action_value mdp gamma rewf V s) - V.getD s 0|)).1.getD t 0
          - (V.set s (listMax (compute_action_value mdp gamma rewf V s))).getD t 0| ≤ c := by
      intro t ht
      have htne : s ≠ t := fun h => hsrest (h ▸ ht)
      rw [getD_set_ne _ _ _ _ _ htne]
      have := hall t (List.mem_cons_of_mem _ ht)
      simpa only [sweepAux] using this
    have := ih hnd' (fun t ht => hrest t (List.mem_cons_of_mem _ ht))
      (V.set s (listMax (compute_action_value mdp gamma rewf V s)))
      (by rw [List.length_set]; exact hlV) _ c hδ' hall'
    simpa only [sweepAux] using this

theorem sweep_length (mdp : MDP K) (gamma : K) (rewf : Option (List K)) (V : List K) :
    (sweep mdp gamma rewf V).1.length = V.length :=
  sweepAux_length mdp gamma rewf (List.range mdp.n_states) V 0

theorem sweepIterFrom_zeros_length (mdp : MDP K) (gamma : K) (rewf : Option (List K)) :
    ∀ k, (sweepIterFrom mdp gamma rewf (zeros mdp.n_states) k).length = mdp.n_states := by
  intro k
  induction k with
  | zero => exact List.length_replicate _ _
  | succ k ih => rw [sweepIterFrom, sweep_length]; exact ih

theorem residual_nonneg (mdp : MDP K) (gamma : K) (rewf : Option (List K)) (k : Nat) :
    0 ≤ residual mdp gamma rewf k :=
  sweepAux_snd_ge mdp gamma rewf (List.range mdp.n_states) _ 0

theorem residual_succ_le (mdp : MDP K) (gamma : K) (rewf : Option (List K))
    (hM : ValidMDP mdp) (hγ0 : 0 ≤ gamma) (hγ1 : gamma ≤ 1) (k : Nat) :
    residual mdp gamma rewf (k + 1) ≤ gamma * residual mdp gamma rewf k := by
  have hrange : ∀ s ∈ List.range mdp.n_states, s < mdp.n_states :=
    fun s hs => List.mem_range.mp hs
  have hlVk : (sweepIterFrom mdp gamma rewf (zeros mdp.n_states) k).length = mdp.n_states :=
    sweepIterFrom_zeros_length mdp gamma rewf k
  have hlVk1 :
      (sweep mdp gamma rewf (sweepIterFrom mdp gamma rewf (zeros mdp.n_states) k)).1.length
        = mdp.n_states := by rw [sweep_length]; exact hlVk
  have hd0 : 0 ≤ residual mdp gamma rewf k := residual_nonneg mdp gamma rewf k
  have hdiff : ∀ i,
      |(sweepIterFrom mdp gamma rewf (zeros mdp.n_states) k).getD i 0
        - (sweep mdp gamma rewf (sweepIterFrom mdp gamma rewf (zeros mdp.n_states) k)).1.getD i 0|
        ≤ residual mdp gamma rewf k := by
    intro i
    rw [abs_sub_comm]
    exact sweepAux_diff_le_snd mdp gamma rewf (List.range mdp.n_states) (List.nodup_range _)
      hrange _ hlVk 0 le_rfl i
  have hcontract := sweepAux_contract mdp gamma (residual mdp gamma rewf k) rewf hM hγ0 hγ1
    (List.range mdp.n_states) hrange _ _ hlVk hlVk1 hdiff 0 0
  apply sweepAux_snd_le mdp gamma rewf (List.range mdp.n_states) (List.nodup_range _) hrange
    _ hlVk1 0 _ (mul_nonneg hγ0 hd0)
  intro s hs
  rw [abs_sub_comm]
  exact hcontract.2 s hs

theorem residual_le_pow (mdp : MDP K) (gamma : K) (rewf : Option (List K))
    (hM : ValidMDP mdp) (hγ0 : 0 ≤ gamma) (hγ1 : gamma ≤ 1) :
    ∀ k, residual mdp gamma rewf k ≤ gamma ^ k * residual mdp gamma rewf 0 := by
  intro k
  induction k with
  | zero => simp
  | succ k ih =>
    calc residual mdp gamma rewf (k + 1) ≤ gamma * residual mdp gamma rewf k :=
          residual_succ_le mdp gamma rewf hM hγ0 hγ1 k
      _ ≤ gamma * (gamma ^ k * residual mdp gamma rewf 0) :=
          mul_le_mul_of_nonneg_left ih hγ0
      _ = gamma ^ (k + 1) * residual mdp gamma rewf 0 := by ring

theorem sweepIterFrom_succ_shift (mdp : MDP K) (gamma : K) (rewf : Option (List K)) :
    ∀ (k : Nat) (V : List K),
      sweepIterFrom mdp gamma rewf V (k + 1)
        = sweepIterFrom mdp gamma rewf (sweep mdp gamma rewf V).1 k := by
  intro k
  induction k with
  | zero => intro V; rfl
  | succ k ih =>
    intro V
    rw [sweepIterFrom, ih V]
    rfl

theorem viLoop_some_of_residual_lt (mdp : MDP K) (gamma eps : K) (rewf : Option (List K)) :
    ∀ (k : Nat) (V : List K),
      (sweep mdp gamma rewf (sweepIterFrom mdp gamma rewf V k)).2 < eps →
      ∃ W, viLoop mdp gamma rewf eps (k + 1) V = some W := by
  intro k
  induction k with
  | zero =>
    intro V h
    simp only [sweepIterFrom] at h
    exact ⟨(sweep mdp gamma rewf V).1, by rw [viLoop, if_pos h]⟩
  | succ k ih =>
    intro V h
    by_cases h0 : (sweep mdp gamma rewf V).2 < eps
    · exact ⟨(sweep mdp gamma rewf V).1, by rw [viLoop, if_pos h0]⟩
    · rw [sweepIterFrom_succ_shift] at h
      obtain ⟨W, hW⟩ := ih (sweep mdp gamma rewf V).1 h
      exact ⟨W, by rw [viLoop, if_neg h0]; exact hW⟩

/-- C4: for every valid MDP, discount `0 ≤ gamma < 1` and tolerance
`eps > 0`, the `while True` sweep loop of `ValueIteration.__call__`
terminates — some finite fuel makes `viLoop` return `some` — and the
per-sweep residual contracts, `delta_(k+1) ≤ gamma * delta_k`, so the
residual sequence is non-increasing and eventually below the tolerance. -/
theorem value_iteration_converges (mdp : MDP ℚ) (gamma eps : ℚ) (rewf : Option (List ℚ))
    (hM : ValidMDP mdp) (hγ0 : 0 ≤ gamma) (hγ1 : gamma < 1) (heps : 0 < eps) :
    (∃ fuel V, viLoop mdp gamma rewf eps fuel (zeros mdp.n_states) = some V)
      ∧ ∀ k, residual mdp gamma rewf (k + 1) ≤ gamma * residual mdp gamma rewf k := by
  refine ⟨?_, fun k => residual_succ_le mdp gamma rewf hM hγ0 hγ1.le k⟩
  have hr0 : 0 ≤ residual mdp gamma rewf 0 := residual_nonneg mdp gamma rewf 0
  have hr1pos : 0 < residual mdp gamma rewf 0 + 1 := by linarith
  obtain ⟨n, hn⟩ := exists_pow_lt_of_lt_one (div_pos heps hr1pos) hγ1
  have hres : residual mdp gamma rewf n ≤ gamma ^ n * residual mdp gamma rewf 0 :=
    residual_le_pow mdp gamma rewf hM hγ0 hγ1.le n
  have hlt : gamma ^ n * residual mdp gamma rewf 0 < eps := by
    calc gamma ^ n * residual mdp gamma rewf 0
        ≤ eps / (residual mdp gamma rewf 0 + 1) * residual mdp gamma rewf 0 :=
          mul_le_mul_of_nonneg_right hn.le hr0
      _ < eps := by
          rw [div_mul_eq_mul_div, div_lt_iff₀ hr1pos]
          nlinarith
  obtain ⟨W, hW⟩ := viLoop_some_of_residual_lt mdp gamma eps rewf n (zeros mdp.n_states)
    (lt_of_le_of_lt hres hlt)
  exact ⟨n + 1, W, hW⟩

/-- Concrete valid one-state MDP used by witnesses. -/
def mdpUnit : MDP ℚ := ⟨1, 1, fun _ _ => [⟨1, 0, 0, false⟩]⟩

/-- Witness for C4 at a concrete valid MDP, `gamma = 1/2`, `eps = 1`. -/
theorem value_iteration_converges_witness :
    (∃ fuel V, viLoop mdpUnit (1/2) none 1 fuel (zeros mdpUnit.n_states) = some V)
      ∧ ∀ k, residual mdpUnit (1/2) none (k + 1) ≤ (1/2) * residual mdpUnit (1/2) none k :=
  value_iteration_converges mdpUnit (1/2) 1 none
    (by unfold ValidMDP; intro s _ a _; simp [mdpUnit]) (by norm_num)
    (by norm_num) (by norm_num)

/-! ### Absence of MDP validation (C3)

`ValueIteration.__call__` contains no validation code at all: it goes
straight from reading `env.nS` / `env.nA` to the sweep loop.  A malformed
MDP whose transition probabilities sum to 2 is therefore processed
normally. -/

/-- A malformed one-state MDP: the single (state, action) probability row
sums to 2, not 1. -/
def mdpBad : MDP ℚ := ⟨1, 1, fun _ _ => [⟨2, 0, 0, false⟩]⟩

/-- C3 (refutation): the numerical core raises no validation error on a
malformed MDP — `mdpBad` violates `ValidMDP`, yet the sweep loop runs a
full value-iteration sweep on it and returns a normal result. -/
theorem malformed_mdp_accepted :
    ¬ ValidMDP mdpBad
      ∧ viLoop mdpBad 0 none 1 1 (zeros mdpBad.n_states) = some [0] := by
  constructor
  · intro h
    have h2 := (h 0 (by norm_num [mdpBad]) 0 (by norm_num [mdpBad])).2
    norm_num [mdpBad] at h2
  · norm_num [viLoop, sweep, sweepAux, compute_action_value, outcomeReward, listMax,
      zeros, mdpBad, List.range_succ]

/-- C3 (amended): value iteration performs no input validation — on the
malformed `mdpBad` it completes its sweep and converges normally for every
discount and every positive tolerance, never signalling an error. -/
theorem malformed_mdp_no_validation (gamma eps : ℚ) (heps : 0 < eps) :
    viLoop mdpBad gamma none eps 1 (zeros mdpBad.n_states) = some [0] := by
  have hsweep : sweep mdpBad gamma none (zeros mdpBad.n_states) = ([0], 0) := by
    norm_num [sweep, sweepAux, compute_action_value, outcomeReward, listMax,
      zeros, mdpBad, List.range_succ]
  rw [viLoop, hsweep]
  simp [heps]

/-- Witness for the amended C3 at `gamma = 0`, `eps = 1`. -/
theorem malformed_mdp_no_validation_witness :
    viLoop mdpBad 0 none 1 1 (zeros mdpBad.n_states) = some [0] :=
  malformed_mdp_no_validation 0 1 (by norm_num)

/-! ### Exact visitation estimator `compute_visitation` (C9)

`mu = np.zeros((n_steps, n_states))`; `mu[0, trajectory[0]] += 1` per
trajectory; `mu /= n_trajectories`; then for `t = 1 .. n_steps-1` and every
`(state, action)` pair and outcome, `mu[t][next] += mu[t-1][state] *
policy[state][action] * prob`; returns `mu.sum(axis=0)`.  Row `t` depends
only on row `t-1`, so the matrix is modelled row by row (`muRow`). -/

/-- `l[i] += x` on a numpy vector. -/
def addAt (l : List K) (i : Nat) (x : K) : List K := l.set i (l.getD i 0 + x)

/-- Row 0 of `mu`: initial-state counts divided by `n_trajectories`. -/
def mu0 (n_states : Nat) (trajs : List (List Nat)) : List K :=
  (trajs.foldl (fun acc traj => addAt acc (traj.headD 0) 1) (zeros n_states)).map
    (fun x => x / (trajs.length : K))

/-- One forward-propagation step `mu[t]` from `mu[t-1]`, iterating
`product(states, actions)` and the outcome list exactly as the notebook. -/
def muStep (mdp : MDP K) (policy : List (List K)) (prev : List K) : List K :=
  (List.range mdp.n_states).foldl (fun acc state =>
    (List.range mdp.n_actions).foldl (fun acc2 action =>
      (mdp.P state action).foldl (fun acc3 o =>
        addAt acc3 o.next (prev.getD state 0 * (policy.getD state []).getD action 0 * o.prob))
        acc2) acc) (zeros mdp.n_states)

/-- Row `t` of the occupancy matrix `mu`. -/
def muRow (mdp : MDP K) (policy : List (List K)) (trajs : List (List Nat)) : Nat → List K
  | 0 => mu0 mdp.n_states trajs
  | Nat.succ t => muStep mdp policy (muRow mdp policy trajs t)

/-- Elementwise vector sum (numpy `+` of equal-shape vectors). -/
def vecAdd (a b : List K) : List K := List.zipWith (fun x y => x + y) a b

/-- `compute_visitation(env, policy, trajectories) = mu.sum(axis=0)`, with
`n_steps` read off the trajectory batch's shape. -/
def compute_visitation (mdp : MDP K) (policy : List (List K)) (trajs : List (List Nat)) :
    List K :=
  (List.range (trajs.headD []).length).foldl
    (fun acc t => vecAdd acc (muRow mdp policy trajs t)) (zeros mdp.n_states)

theorem zeros_length (n : Nat) : (zeros (K := K) n).length = n :=
  List.length_replicate n 0

theorem zeros_sum (n : Nat) : (zeros (K := K) n).sum = 0 := by
  simp [zeros]

theorem addAt_length (l : List K) (i : Nat) (x : K) : (addAt l i x).length = l.length :=
  List.length_set l i _

theorem sum_set (l : List K) : ∀ (i : Nat), i < l.length → ∀ (a : K),
    (l.set i a).sum = l.sum - l.getD i 0 + a := by
  induction l with
  | nil => intro i h; simp at h
  | cons x xs ih =>
    intro i h a
    cases i with
    | zero =>
      simp only [List.set_cons_zero, List.sum_cons, List.getD_cons_zero]
      ring
    | succ i =>
      simp only [List.set_cons_succ, List.sum_cons, List.getD_cons_succ,
        ih i (by simpa using h) a]
      ring

theorem addAt_sum (l : List K) (i : Nat) (h : i < l.length) (x : K) :
    (addAt l i x).sum = l.sum + x := by
  unfold addAt
  rw [sum_set l i h]
  ring

theorem foldl_addAt (idx : α → Nat) (amt : α → K) :
    ∀ (l : List α) (acc : List K), (∀ o ∈ l, idx o < acc.length) →
      (l.foldl (fun acc2 o => addAt acc2 (idx o) (amt o)) acc).length = acc.length
        ∧ (l.foldl (fun acc2 o => addAt acc2 (idx o) (amt o)) acc).sum
            = acc.sum + (l.map amt).sum := by
  intro l
  induction l with
  | nil => intro acc _; exact ⟨rfl, by simp⟩
  | cons x xs ih =>
    intro acc hin
    have hx : idx x < acc.length := hin x (List.mem_cons_self x xs)
    have hlen : (addAt acc (idx x) (amt x)).length = acc.length := addAt_length ..
    obtain ⟨ihlen, ihsum⟩ := ih (addAt acc (idx x) (amt x))
      (fun o ho => hlen ▸ hin o (List.mem_cons_of_mem _ ho))
    refine ⟨by simpa [hlen] using ihlen, ?_⟩
    simp only [List.foldl_cons, List.map_cons, List.sum_cons, ihsum,
      addAt_sum acc (idx x) hx (amt x)]
    ring

theorem sum_map_div (l : List K) (c : K) : (l.map (fun x => x / c)).sum = l.sum / c := by
  induction l with
  | nil => simp
  | cons x xs ih => simp [ih, add_div]

theorem sum_range_getD (l : List K) :
    ((List.range l.length).map (fun i => l.getD i 0)).sum = l.sum := by
  induction l with
  | nil => simp
  | cons x xs ih =>
    rw [List.length_cons, List.range_succ_eq_map]
    simp only [List.map_cons, List.map_map, List.sum_cons, List.getD_cons_zero]
    have hcomp : ((fun i => (x :: xs).getD i 0) ∘ Nat.succ) = fun i => xs.getD i 0 := by
      funext i
      simp [Function.comp]
    rw [hcomp, ih]

theorem foldl_addAt_length (idx : α → Nat) (amt : α → K) :
    ∀ (l : List α) (acc : List K),
      (l.foldl (fun acc2 o => addAt acc2 (idx o) (amt o)) acc).length = acc.length := by
  intro l
  induction l with
  | nil => intro acc; rfl
  | cons x xs ih =>
    intro acc
    rw [List.foldl_cons, ih, addAt_length]

theorem mu0_length (n : Nat) (trajs : List (List Nat)) :
    (mu0 (K := K) n trajs).length = n := by
  unfold mu0
  rw [List.length_map, foldl_addAt_length, zeros_length]

theorem sum_map_one {α : Type} (l : List α) :
    (l.map (fun _ => (1 : K))).sum = (l.length : K) := by
  induction l with
  | nil => simp
  | cons x xs ih => simp [ih]; ring

theorem mu0_sum (n : Nat) (trajs : List (List Nat)) (htr : trajs ≠ [])
    (hheads : ∀ row ∈ trajs, row.headD 0 < n) :
    (mu0 (K := K) n trajs).sum = 1 := by
  unfold mu0
  rw [sum_map_div]
  have hsum := (foldl_addAt (fun traj => traj.headD 0) (fun _ => (1 : K)) trajs (zeros n)
    (fun o ho => by rw [zeros_length]; exact hheads o ho)).2
  rw [hsum, zeros_sum, zero_add, sum_map_one]
  exact div_self (Nat.cast_ne_zero.mpr (fun h => htr (List.length_eq_zero.mp h)))

theorem getD_mem {α : Type} (l : List α) (d : α) :
    ∀ i, i < l.length → l.getD i d ∈ l := by
  induction l with
  | nil => intro i h; simp at h
  | cons x xs ih =>
    intro i h
    cases i with
    | zero => simp
    | succ i =>
      simp only [List.getD_cons_succ]
      exact List.mem_cons_of_mem _ (ih i (by simpa using h))

theorem muStep_inner (mdp : MDP K) (policy : List (List K)) (prev : List K)
    (hM : ValidMDP mdp) (state : Nat) (hstate : state < mdp.n_states) :
    ∀ (acts : List Nat), (∀ a ∈ acts, a < mdp.n_actions) →
    ∀ (acc : List K), acc.length = mdp.n_states →
      (acts.foldl (fun acc2 action => (mdp.P state action).foldl
          (fun acc3 o => addAt acc3 o.next
            (prev.getD state 0 * (policy.getD state []).getD action 0 * o.prob)) acc2)
          acc).length = mdp.n_states
      ∧ (acts.foldl (fun acc2 action => (mdp.P state action).foldl
          (fun acc3 o => addAt acc3 o.next
            (prev.getD state 0 * (policy.getD state []).getD action 0 * o.prob)) acc2)
          acc).sum
        = acc.sum
          + prev.getD state 0 * (acts.map (fun a => (policy.getD state []).getD a 0)).sum := by
  intro acts
  induction acts with
  | nil => intro _ acc hacc; exact ⟨hacc, by simp⟩
  | cons a as ih =>
    intro hin acc hacc
    have haA : a < mdp.n_actions := hin a (List.mem_cons_self a as)
    obtain ⟨hout, hpsum⟩ := hM state hstate a haA
    have hstep := foldl_addAt Outcome.next
      (fun o => prev.getD state 0 * (policy.getD state []).getD a 0 * o.prob)
      (mdp.P state a) acc
      (fun o ho => by rw [hacc]; exact (hout o ho).2)
    have hlen1 : ((mdp.P state a).foldl
        (fun acc3 o => addAt acc3 o.next
          (prev.getD state 0 * (policy.getD state []).getD a 0 * o.prob)) acc).length
        = mdp.n_states := by rw [hstep.1, hacc]
    obtain ⟨ihlen, ihsum⟩ := ih (fun b hb => hin b (List.mem_cons_of_mem _ hb)) _ hlen1
    refine ⟨by simpa using ihlen, ?_⟩
    simp only [List.foldl_cons]
    rw [ihsum, hstep.2]
    have hmap : ((mdp.P state a).map
        (fun o => prev.getD state 0 * (policy.getD state []).getD a 0 * o.prob)).sum
        = prev.getD state 0 * (policy.getD state []).getD a 0 := by
      have := sum_map_const_mul (K := K) (Outcome.prob)
        (prev.getD state 0 * (policy.getD state []).getD a 0) (mdp.P state a)
      rw [this, hpsum, mul_one]
    rw [hmap]
    simp only [List.map_cons, List.sum_cons]
    ring

theorem muStep_outer (mdp : MDP K) (policy : List (List K)) (prev : List K)
    (hM : ValidMDP mdp)
    (hpol_len : policy.length = mdp.n_states)
    (hpol_rows : ∀ row ∈ policy, row.length = mdp.n_actions ∧ row.sum = 1) :
    ∀ (sts : List Nat), (∀ s ∈ sts, s < mdp.n_states) →
    ∀ (acc : List K), acc.length = mdp.n_states →
      (sts.foldl (fun acc state => (List.range mdp.n_actions).foldl
          (fun acc2 action => (mdp.P state action).foldl
            (fun acc3 o => addAt acc3 o.next
              (prev.getD state 0 * (policy.getD state []).getD action 0 * o.prob)) acc2) acc)
          acc).length = mdp.n_states
      ∧ (sts.foldl (fun acc state => (List.range mdp.n_actions).foldl
          (fun acc2 action => (mdp.P state action).foldl
            (fun acc3 o => addAt acc3 o.next
              (prev.getD state 0 * (policy.getD state []).getD action 0 * o.prob)) acc2) acc)
          acc).sum
        = acc.sum + (sts.map (fun s => prev.getD s 0)).sum := by
  intro sts
  induction sts with
  | nil => intro _ acc hacc; exact ⟨hacc, by simp⟩
  | cons s ss ih =>
    intro hin acc hacc
    have hsn : s < mdp.n_states := hin s (List.mem_cons_self s ss)
    have hrow : (policy.getD s []).length = mdp.n_actions
        ∧ (policy.getD s []).sum = 1 :=
      hpol_rows _ (getD_mem policy [] s (hpol_len ▸ hsn))
    have hrowsum : ((List.range mdp.n_actions).map
        (fun a => (policy.getD s []).getD a 0)).sum = 1 := by
      rw [← hrow.1, sum_range_getD, hrow.2]
    obtain ⟨hlen1, hsum1⟩ := muStep_inner mdp policy prev hM s hsn
      (List.range mdp.n_actions) (fun a ha => List.mem_range.mp ha) acc hacc
    obtain ⟨ihlen, ihsum⟩ := ih (fun t ht => hin t (List.mem_cons_of_mem _ ht)) _ hlen1
    refine ⟨by simpa using ihlen, ?_⟩
    simp only [List.foldl_cons]
    rw [ihsum, hsum1, hrowsum, mul_one]
    simp only [List.map_cons, List.sum_cons]
    ring

theorem muStep_length_sum (mdp : MDP K) (policy : List (List K)) (prev : List K)
    (hM : ValidMDP mdp)
    (hpol_len : policy.length = mdp.n_states)
    (hpol_rows : ∀ row ∈ policy, row.length = mdp.n_actions ∧ row.sum = 1)
    (hprev : prev.length = mdp.n_states) :
    (muStep mdp policy prev).length = mdp.n_states
      ∧ (muStep mdp policy prev).sum = prev.sum := by
  unfold muStep
  obtain ⟨hlen, hsum⟩ := muStep_outer mdp policy prev hM hpol_len hpol_rows
    (List.range mdp.n_states) (fun s hs => List.mem_range.mp hs)
    (zeros mdp.n_states) (zeros_length _)
  refine ⟨hlen, ?_⟩
  rw [hsum, zeros_sum, zero_add]
  have := sum_range_getD prev
  rw [hprev] at this
  exact this

theorem muRow_length_sum (mdp : MDP K) (policy : List (List K)) (trajs : List (List Nat))
    (hM : ValidMDP mdp)
    (hpol_len : policy.length = mdp.n_states)
    (hpol_rows : ∀ row ∈ policy, row.length = mdp.n_actions ∧ row.sum = 1)
    (htr : trajs ≠ [])
    (hheads : ∀ row ∈ trajs, row.headD 0 < mdp.n_states) :
    ∀ t, (muRow mdp policy trajs t).length = mdp.n_states
      ∧ (muRow mdp policy trajs t).sum = 1 := by
  intro t
  induction t with
  | zero => exact ⟨mu0_length _ _, mu0_sum _ _ htr hheads⟩
  | succ t ih =>
    obtain ⟨ihlen, ihsum⟩ := ih
    have := muStep_length_sum mdp policy (muRow mdp policy trajs t) hM hpol_len hpol_rows ihlen
    exact ⟨this.1, by rw [muRow]; rw [this.2, ihsum]⟩

theorem vecAdd_length (a b : List K) (h : b.length = a.length) :
    (vecAdd a b).length = a.length := by
  simp [vecAdd, h]

theorem vecAdd_sum : ∀ (a b : List K), a.length = b.length →
    (vecAdd a b).sum = a.sum + b.sum := by
  intro a
  induction a with
  | nil =>
    intro b hb
    have : b = [] := List.length_eq_zero.mp hb.symm
    subst this
    simp [vecAdd]
  | cons x xs ih =>
    intro b hb
    cases b with
    | nil => simp at hb
    | cons y ys =>
      simp only [vecAdd, List.zipWith_cons_cons, List.sum_cons]
      have := ih ys (by simpa using hb)
      simp only [vecAdd] at this
      rw [this]
      ring

/-- C9: for a valid MDP and a row-stochastic policy, every occupancy row
`mu[t]` computed by `compute_visitation` sums to 1 (the initial row by
construction, and each forward-propagation step preserves total mass), so
the returned feature vector sums to `n_steps`. -/
theorem visitation_mass_conserved (mdp : MDP ℚ) (policy : List (List ℚ))
    (trajs : List (List Nat))
    (hM : ValidMDP mdp)
    (hpol_len : policy.length = mdp.n_states)
    (hpol_rows : ∀ row ∈ policy, row.length = mdp.n_actions ∧ row.sum = 1)
    (htr : trajs ≠ [])
    (hheads : ∀ row ∈ trajs, row.headD 0 < mdp.n_states) :
    (∀ t, t < (trajs.headD []).length → (muRow mdp policy trajs t).sum = 1)
      ∧ (compute_visitation mdp policy trajs).sum = ((trajs.headD []).length : ℚ) := by
  have hrow := muRow_length_sum mdp policy trajs hM hpol_len hpol_rows htr hheads
  refine ⟨fun t _ => (hrow t).2, ?_⟩
  unfold compute_visitation
  have main : ∀ m : Nat,
      ((List.range m).foldl (fun acc t => vecAdd acc (muRow mdp policy trajs t))
          (zeros mdp.n_states)).length = mdp.n_states
        ∧ ((List.range m).foldl (fun acc t => vecAdd acc (muRow mdp policy trajs t))
          (zeros mdp.n_states)).sum = (m : ℚ) := by
    intro m
    induction m with
    | zero => exact ⟨zeros_length _, by simp [zeros_sum]⟩
    | succ m ihm =>
      obtain ⟨ihlen, ihsum⟩ := ihm
      rw [List.range_succ, List.foldl_append]
      have hlen : (vecAdd ((List.range m).foldl
          (fun acc t => vecAdd acc (muRow mdp policy trajs t)) (zeros mdp.n_states))
          (muRow mdp policy trajs m)).length = mdp.n_states := by
        rw [vecAdd_length _ _ (by rw [(hrow m).1, ihlen]), ihlen]
      refine ⟨by simpa using hlen, ?_⟩
      simp only [List.foldl_cons, List.foldl_nil]
      rw [vecAdd_sum _ _ (by rw [(hrow m).1, ihlen]), ihsum, (hrow m).2]
      push_cast
      ring
  exact (main (trajs.headD []).length).2

/-- Concrete deterministic policy and batch for witnesses: one state, one
action, one trajectory of one step. -/
theorem visitation_mass_conserved_witness :
    ((∀ t, t < (([[0]] : List (List Nat)).headD []).length →
        (muRow mdpUnit [[1]] [[0]] t).sum = 1)
      ∧ (compute_visitation mdpUnit [[1]] [[0]]).sum
          = ((([[0]] : List (List Nat)).headD []).length : ℚ)) :=
  visitation_mass_conserved mdpUnit [[1]] [[0]]
    (by unfold ValidMDP; intro s _ a _; simp [mdpUnit])
    (by simp [mdpUnit])
    (by intro row hrow; simp at hrow; subst hrow; simp [mdpUnit])
    (by simp)
    (by intro row hrow; simp at hrow; subst hrow; simp [mdpUnit])

/-! ### MaxEnt IRL epoch update (C7)

Inside both trainers' epoch loops: `grad = self.experts_feature -
learners_feature; reward_function += learning_rate * grad` with
`learning_rate = 0.1`, the learner feature being `compute_visitation`
under the epoch's policy (exact variant). -/

/-- Elementwise difference of two feature vectors (numpy `-`). -/
def vsub (a b : List K) : List K := List.zipWith (fun x y => x - y) a b

/-- Scalar multiple of a vector (numpy `c * v`). -/
def smul (c : K) (a : List K) : List K := a.map (fun x => c * x)

/-- Elementwise sum used by `reward_function += ...` (numpy `+=`). -/
def vadd (a b : List K) : List K := List.zipWith (fun x y => x + y) a b

/-- One epoch's reward update in the exact-variant trainer, given the
epoch's value-iteration policy. -/
def irlEpoch (mdp : MDP K) (experts_feature : List K) (trajs : List (List Nat))
    (policy : List (List K)) (reward_function : List K) : List K :=
  vadd reward_function
    (smul (1/10) (vsub experts_feature (compute_visitation mdp policy trajs)))

theorem vsub_self (a : List K) : vsub a a = List.replicate a.length 0 := by
  induction a with
  | nil => rfl
  | cons x xs ih =>
    have ih' : List.zipWith (fun x y => x - y) xs xs = List.replicate xs.length 0 := ih
    simp [vsub, List.replicate_succ, ih']

theorem smul_replicate_zero (c : K) (n : Nat) :
    smul c (List.replicate n 0) = List.replicate n 0 := by
  simp [smul, List.map_replicate]

theorem vadd_replicate_zero (a : List K) : vadd a (List.replicate a.length 0) = a := by
  induction a with
  | nil => rfl
  | cons x xs ih =>
    have ih' : List.zipWith (fun x y => x + y) xs (List.replicate xs.length 0) = xs := ih
    simp [vadd, List.replicate_succ, ih']

/-- C7: in an epoch whose learner feature vector equals the expert feature
vector, the gradient is the zero vector and the reward vector is unchanged
by the epoch update. -/
theorem irl_epoch_idempotent (mdp : MDP ℚ) (experts_feature : List ℚ)
    (trajs : List (List Nat)) (policy : List (List ℚ)) (reward_function : List ℚ)
    (hfeat : compute_visitation mdp policy trajs = experts_feature)
    (hlen : experts_feature.length = reward_function.length) :
    vsub experts_feature (compute_visitation mdp policy trajs)
        = List.replicate experts_feature.length 0
      ∧ irlEpoch mdp experts_feature trajs policy reward_function = reward_function := by
  constructor
  · rw [hfeat, vsub_self]
  · unfold irlEpoch
    rw [hfeat, vsub_self, smul_replicate_zero, hlen, vadd_replicate_zero]

/-- Witness for C7: in the one-state MDP with the deterministic policy, the
visitation of the single one-step trajectory is `[1]`; with expert feature
`[1]` the epoch leaves the reward vector `[0]` unchanged. -/
theorem irl_epoch_idempotent_witness :
    (vsub [1] (compute_visitation mdpUnit [[1]] [[0]]) = List.replicate 1 0
        ∧ irlEpoch mdpUnit [1] [[0]] [[1]] [0] = [0]) := by
  have hfeat : compute_visitation mdpUnit [[1]] [[0]] = [1] := by
    norm_num [compute_visitation, muRow, mu0, addAt, zeros, vecAdd, mdpUnit,
      List.range_succ]
  have := irl_epoch_idempotent mdpUnit [1] [[0]] [[1]] [0] hfeat rfl
  simpa using this

/-! ### Softmax policy (C5, C8) and the full calls (C2)

`compute_softmax_policy(beta)`: `policy[state] = beta * qA(state)`, row-max
subtraction, `np.exp`, row normalisation.  The real exponential forces
these definitions (and everything downstream of a policy) to live over
`ℝ`. -/

/-- One row of `compute_softmax_policy`: subtract the row max, exponentiate,
normalise by the row sum of the exponentials. -/
noncomputable def softmaxRow (xs : List ℝ) : List ℝ :=
  (xs.map (fun x => Real.exp (x - listMax xs))).map
    (fun e => e / (xs.map (fun x => Real.exp (x - listMax xs))).sum)

/-- `compute_softmax_policy(beta)` from `ValueIteration.__call__`, applied
row by row (the numpy operations are all row-wise). -/
noncomputable def compute_softmax_policy (mdp : MDP ℝ) (gamma : ℝ)
    (reward_function : Option (List ℝ)) (V : List ℝ) (beta : ℝ) : List (List ℝ) :=
  (List.range mdp.n_states).map (fun state =>
    softmaxRow ((compute_action_value mdp gamma reward_function V state).map
      (fun q => beta * q)))

/-- `ValueIteration.__call__`: zero-initialised sweep loop to convergence,
then the softmax policy recomputed from the converged value function. -/
noncomputable def ValueIteration_call (mdp : MDP ℝ) (gamma beta eps : ℝ)
    (reward_function : Option (List ℝ)) (fuel : Nat) :
    Option (List ℝ × List (List ℝ)) :=
  match viLoop mdp gamma reward_function eps fuel (zeros mdp.n_states) with
  | none => none
  | some V => some (V, compute_softmax_policy mdp gamma reward_function V beta)

/-- The epoch loop of `MaxEntIRL.__call__` (exact variant).  The third
argument models the local variable `V`: it is `none` until the first
epoch body assigns it.  Returning at `n_epochs = 0` with `V` still
unassigned models Python's `UnboundLocalError` at `return
reward_function, V`. -/
noncomputable def MaxEntIRL_epochs (mdp : MDP ℝ) (experts_feature : List ℝ)
    (trajs : List (List Nat)) (gamma beta eps : ℝ) (fuel : Nat) :
    Nat → List ℝ → Option (List ℝ) → Option (List ℝ × List ℝ)
  | 0, reward_function, some V => some (reward_function, V)
  | 0, _, none => none
  | Nat.succ n, reward_function, _ =>
    match ValueIteration_call mdp gamma beta eps (some reward_function) fuel with
    | none => none
    | some (V, policy) =>
      MaxEntIRL_epochs mdp experts_feature trajs gamma beta eps fuel n
        (irlEpoch mdp experts_feature trajs policy reward_function) (some V)

/-- `MaxEntIRL.__call__(policy, n_epochs, gamma, beta, epsilon)`:
`reward_function = np.zeros(nS)`, run `n_epochs` epochs, return
`(reward_function, V)`.  The `policy0` argument is the (shadowed, unused
before reassignment) `policy` parameter of the source. -/
noncomputable def MaxEntIRL_call (mdp : MDP ℝ) (experts_feature : List ℝ)
    (trajs : List (List Nat)) (policy0 : List (List ℝ)) (n_epochs : Nat)
    (gamma beta eps : ℝ) (fuel : Nat) : Option (List ℝ × List ℝ) :=
  MaxEntIRL_epochs mdp experts_feature trajs gamma beta eps fuel n_epochs
    (zeros mdp.n_states) none

/-- C2 (refutation): with `n_epochs = 0` the exact-variant trainer cannot
return the claimed pair at all — the local `V` is only assigned inside the
epoch loop, so `return reward_function, V` hits an unassigned local
(Python `UnboundLocalError`), modelled here as the `none` result, for every
MDP, expert feature, batch, discount and temperature. -/
theorem maxent_irl_zero_epochs_unbound (mdp : MDP ℝ) (experts_feature : List ℝ)
    (trajs : List (List Nat)) (policy0 : List (List ℝ)) (gamma beta eps : ℝ)
    (fuel : Nat) :
    MaxEntIRL_call mdp experts_feature trajs policy0 0 gamma beta eps fuel = none := rfl

theorem exp_list_sum_pos (xs : List ℝ) (hne : xs ≠ []) :
    0 < (xs.map (fun x => Real.exp (x - listMax xs))).sum := by
  apply List.sum_pos
  · intro e he
    obtain ⟨x, _, rfl⟩ := List.mem_map.mp he
    exact Real.exp_pos _
  · simpa using hne

theorem softmaxRow_nonneg_sum_one (xs : List ℝ) (hne : xs ≠ []) :
    (∀ p ∈ softmaxRow xs, 0 ≤ p) ∧ (softmaxRow xs).sum = 1 := by
  have hZ : 0 < (xs.map (fun x => Real.exp (x - listMax xs))).sum :=
    exp_list_sum_pos xs hne
  constructor
  · intro p hp
    obtain ⟨e, he, rfl⟩ := List.mem_map.mp hp
    obtain ⟨x, _, rfl⟩ := List.mem_map.mp he
    exact le_of_lt (div_pos (Real.exp_pos _) hZ)
  · unfold softmaxRow
    rw [sum_map_div, div_self hZ.ne']

/-- C5: every row of the softmax policy returned by Value Iteration is a
probability distribution — entries nonnegative and summing to exactly 1. -/
theorem softmax_policy_rows_stochastic (mdp : MDP ℝ) (gamma : ℝ)
    (reward_function : Option (List ℝ)) (V : List ℝ) (beta : ℝ)
    (hA : 0 < mdp.n_actions) :
    ∀ row ∈ compute_softmax_policy mdp gamma reward_function V beta,
      (∀ p ∈ row, 0 ≤ p) ∧ row.sum = 1 := by
  intro row hrow
  obtain ⟨s, _, rfl⟩ := List.mem_map.mp hrow
  apply softmaxRow_nonneg_sum_one
  have hlen : ((compute_action_value mdp gamma reward_function V s).map
      (fun q => beta * q)).length = mdp.n_actions := by
    rw [List.length_map]
    unfold compute_action_value
    rw [List.length_map, List.length_range]
  intro h
  rw [h] at hlen
  simp only [List.length_nil] at hlen
  omega

/-- Concrete one-state real MDP for the softmax witnesses. -/
def mdpUnitR : MDP ℝ := ⟨1, 1, fun _ _ => [⟨1, 0, 0, false⟩]⟩

/-- Witness for C5 at the concrete one-state, one-action MDP. -/
theorem softmax_policy_rows_stochastic_witness :
    (0 < mdpUnitR.n_actions)
      ∧ ∀ row ∈ compute_softmax_policy mdpUnitR 0 none [] 1,
          (∀ p ∈ row, 0 ≤ p) ∧ row.sum = 1 :=
  ⟨by decide, softmax_policy_rows_stochastic mdpUnitR 0 none [] 1 (by decide)⟩

/-! ### Entropy monotonicity in the inverse temperature (C8)

The numerically-stabilised softmax the code computes equals the ideal
Boltzmann distribution `p_beta(v) = exp(beta v) / Z(beta)`; the entropy of
`p_beta` is non-increasing in `beta ≥ 0`, by the Gibbs inequality applied
at the two temperatures. -/

/-- Shannon entropy of a policy row (natural logarithm). -/
noncomputable def rowEntropy (p : List ℝ) : ℝ := -((p.map (fun x => x * Real.log x)).sum)

/-- Partition function of the ideal softmax of `beta * xs`. -/
noncomputable def gibbsZ (beta : ℝ) (xs : List ℝ) : ℝ :=
  (xs.map (fun v => Real.exp (beta * v))).sum

/-- Ideal softmax weight of the entry with Q-value `v`. -/
noncomputable def gibbsP (beta : ℝ) (xs : List ℝ) (v : ℝ) : ℝ :=
  Real.exp (beta * v) / gibbsZ beta xs

/-- Mean Q-value under the ideal softmax. -/
noncomputable def gibbsE (beta : ℝ) (xs : List ℝ) : ℝ :=
  (xs.map (fun v => gibbsP beta xs v * v)).sum

theorem sum_map_sub {α : Type} (f g : α → K) (l : List α) :
    (l.map (fun v => f v - g v)).sum = (l.map f).sum - (l.map g).sum := by
  induction l with
  | nil => simp
  | cons x xs ih =>
    simp only [List.map_cons, List.sum_cons, ih]
    ring

theorem softmaxRow_eq_div_expsum (ys : List ℝ) :
    softmaxRow ys = ys.map (fun y => Real.exp y / (ys.map Real.exp).sum) := by
  cases ys with
  | nil => rfl
  | cons y0 ys0 =>
    have hS : 0 < ((y0 :: ys0).map Real.exp).sum := by
      apply List.sum_pos
      · intro e he
        obtain ⟨x, _, rfl⟩ := List.mem_map.mp he
        exact Real.exp_pos _
      · simp
    have h1 : (y0 :: ys0).map (fun x => Real.exp (x - listMax (y0 :: ys0)))
        = (y0 :: ys0).map (fun x => Real.exp x * Real.exp (-listMax (y0 :: ys0))) := by
      apply List.map_congr_left
      intro x _
      rw [sub_eq_add_neg, Real.exp_add]
    have h2 : ((y0 :: ys0).map (fun x => Real.exp x * Real.exp (-listMax (y0 :: ys0)))).sum
        = ((y0 :: ys0).map Real.exp).sum * Real.exp (-listMax (y0 :: ys0)) :=
      sum_map_mul_const Real.exp _ _
    unfold softmaxRow
    rw [h1, h2, List.map_map]
    apply List.map_congr_left
    intro x _
    simp only [Function.comp_def]
    rw [mul_div_mul_right _ _ (Real.exp_ne_zero _)]

theorem softmaxRow_scaled_eq_gibbs (beta : ℝ) (xs : List ℝ) :
    softmaxRow (xs.map (fun v => beta * v)) = xs.map (fun v => gibbsP beta xs v) := by
  rw [softmaxRow_eq_div_expsum, List.map_map]
  apply List.map_congr_left
  intro v _
  simp only [Function.comp_def, gibbsP, gibbsZ, List.map_map]

theorem gibbsZ_pos (beta : ℝ) (xs : List ℝ) (hne : xs ≠ []) : 0 < gibbsZ beta xs := by
  apply List.sum_pos
  · intro e he
    obtain ⟨x, _, rfl⟩ := List.mem_map.mp he
    exact Real.exp_pos _
  · simpa using hne

theorem gibbsP_pos (beta : ℝ) (xs : List ℝ) (hne : xs ≠ []) (v : ℝ) :
    0 < gibbsP beta xs v :=
  div_pos (Real.exp_pos _) (gibbsZ_pos beta xs hne)

theorem gibbsP_sum (beta : ℝ) (xs : List ℝ) (hne : xs ≠ []) :
    (xs.map (fun v => gibbsP beta xs v)).sum = 1 := by
  have h1 : xs.map (fun v => gibbsP beta xs v)
      = (xs.map (fun v => Real.exp (beta * v))).map (fun x => x / gibbsZ beta xs) := by
    rw [List.map_map]
    rfl
  rw [h1, sum_map_div]
  exact div_self (gibbsZ_pos beta xs hne).ne'

theorem log_gibbsP (beta : ℝ) (xs : List ℝ) (hne : xs ≠ []) (v : ℝ) :
    Real.log (gibbsP beta xs v) = beta * v - Real.log (gibbsZ beta xs) := by
  unfold gibbsP
  rw [Real.log_div (Real.exp_ne_zero _) (gibbsZ_pos beta xs hne).ne', Real.log_exp]

theorem gibbs_cross_sum (xs : List ℝ) (hne : xs ≠ []) (ba bb : ℝ) :
    (xs.map (fun v => gibbsP ba xs v * Real.log (gibbsP bb xs v))).sum
      = bb * gibbsE ba xs - Real.log (gibbsZ bb xs) := by
  have h1 : xs.map (fun v => gibbsP ba xs v * Real.log (gibbsP bb xs v))
      = xs.map (fun v => bb * (gibbsP ba xs v * v)
          - Real.log (gibbsZ bb xs) * gibbsP ba xs v) := by
    apply List.map_congr_left
    intro v _
    rw [log_gibbsP bb xs hne v]
    ring
  rw [h1, sum_map_sub, sum_map_const_mul, sum_map_const_mul, gibbsP_sum ba xs hne, mul_one]
  rfl

theorem rowEntropy_gibbs (xs : List ℝ) (hne : xs ≠ []) (beta : ℝ) :
    rowEntropy (xs.map (fun v => gibbsP beta xs v))
      = Real.log (gibbsZ beta xs) - beta * gibbsE beta xs := by
  unfold rowEntropy
  rw [List.map_map]
  have h1 : ((fun x => x * Real.log x) ∘ fun v => gibbsP beta xs v)
      = fun v => gibbsP beta xs v * Real.log (gibbsP beta xs v) := rfl
  rw [h1, gibbs_cross_sum xs hne beta beta]
  ring

theorem gibbs_inequality (xs : List ℝ) (q r : ℝ → ℝ)
    (hq : ∀ v ∈ xs, 0 < q v) (hr : ∀ v ∈ xs, 0 < r v)
    (hq1 : (xs.map q).sum = 1) (hr1 : (xs.map r).sum = 1) :
    (xs.map (fun v => q v * Real.log (r v))).sum
      ≤ (xs.map (fun v => q v * Real.log (q v))).sum := by
  have key : ∀ v ∈ xs,
      q v * Real.log (r v) - q v * Real.log (q v) ≤ r v - q v := by
    intro v hv
    have hqv := hq v hv
    have hrv := hr v hv
    have hlog : Real.log (r v / q v) ≤ r v / q v - 1 :=
      Real.log_le_sub_one_of_pos (div_pos hrv hqv)
    have hlogd : Real.log (r v / q v) = Real.log (r v) - Real.log (q v) :=
      Real.log_div hrv.ne' hqv.ne'
    have hmul : q v * Real.log (r v / q v) ≤ q v * (r v / q v - 1) :=
      mul_le_mul_of_nonneg_left hlog hqv.le
    rw [hlogd] at hmul
    have hfield : q v * (r v / q v - 1) = r v - q v := by
      field_simp
    rw [hfield] at hmul
    calc q v * Real.log (r v) - q v * Real.log (q v)
        = q v * (Real.log (r v) - Real.log (q v)) := by ring
      _ ≤ r v - q v := hmul
  have hsum := List.sum_le_sum key
  rw [sum_map_sub, sum_map_sub, hq1, hr1] at hsum
  linarith

theorem softmax_entropy_mono_core (xs : List ℝ) (hne : xs ≠ []) (b1 b2 : ℝ)
    (h0 : 0 ≤ b1) (h12 : b1 ≤ b2) :
    rowEntropy (softmaxRow (xs.map (fun v => b2 * v)))
      ≤ rowEntropy (softmaxRow (xs.map (fun v => b1 * v))) := by
  rw [softmaxRow_scaled_eq_gibbs, softmaxRow_scaled_eq_gibbs,
    rowEntropy_gibbs xs hne b1, rowEntropy_gibbs xs hne b2]
  rcases eq_or_lt_of_le h12 with heq | hlt
  · subst heq
    exact le_refl _
  · have hg1 := gibbs_inequality xs (fun v => gibbsP b2 xs v) (fun v => gibbsP b1 xs v)
      (fun v _ => gibbsP_pos b2 xs hne v) (fun v _ => gibbsP_pos b1 xs hne v)
      (gibbsP_sum b2 xs hne) (gibbsP_sum b1 xs hne)
    have hg2 := gibbs_inequality xs (fun v => gibbsP b1 xs v) (fun v => gibbsP b2 xs v)
      (fun v _ => gibbsP_pos b1 xs hne v) (fun v _ => gibbsP_pos b2 xs hne v)
      (gibbsP_sum b1 xs hne) (gibbsP_sum b2 xs hne)
    rw [gibbs_cross_sum xs hne b2 b1, gibbs_cross_sum xs hne b2 b2] at hg1
    rw [gibbs_cross_sum xs hne b1 b2, gibbs_cross_sum xs hne b1 b1] at hg2
    have hE : 0 ≤ gibbsE b2 xs - gibbsE b1 xs := by nlinarith
    nlinarith [mul_nonneg h0 hE]

theorem getD_map_range {α : Type} (f : Nat → α) (d : α) (n s : Nat) (h : s < n) :
    ((List.range n).map f).getD s d = f s := by
  have hlen : s < ((List.range n).map f).length := by simpa using h
  rw [List.getD_eq_getElem _ _ hlen]
  simp

/-- C8: increasing the inverse temperature `beta` never increases the
entropy of any policy row — the softmax sharpens towards the maximal
Q-value action(s). -/
theorem softmax_sharpens_with_beta (mdp : MDP ℝ) (gamma : ℝ)
    (reward_function : Option (List ℝ)) (V : List ℝ) (b1 b2 : ℝ)
    (h0 : 0 ≤ b1) (h12 : b1 ≤ b2) (hA : 0 < mdp.n_actions)
    (s : Nat) (hs : s < mdp.n_states) :
    rowEntropy ((compute_softmax_policy mdp gamma reward_function V b2).getD s [])
      ≤ rowEntropy ((compute_softmax_policy mdp gamma reward_function V b1).getD s []) := by
  unfold compute_softmax_policy
  rw [getD_map_range _ _ _ _ hs, getD_map_range _ _ _ _ hs]
  apply softmax_entropy_mono_core _ _ b1 b2 h0 h12
  intro h
  have hlen : (compute_action_value mdp gamma reward_function V s).length
      = mdp.n_actions := by
    unfold compute_action_value
    rw [List.length_map, List.length_range]
  rw [h] at hlen
  simp only [List.length_nil] at hlen
  omega

/-- Witness for C8 at the one-state real MDP with `b1 = 0 ≤ b2 = 1`. -/
theorem softmax_sharpens_with_beta_witness :
    rowEntropy ((compute_softmax_policy mdpUnitR 0 none [] 1).getD 0 [])
      ≤ rowEntropy ((compute_softmax_policy mdpUnitR 0 none [] 0).getD 0 []) :=
  softmax_sharpens_with_beta mdpUnitR 0 none [] 0 1 (by norm_num) (by norm_num)
    (by decide) 0 (by decide)

end BILT
